import Mathlib

/-!
Shallow embedding of the quiz answer-evaluation and scoring logic of the
educational quiz application (source files `src/components/Quiz.tsx`,
`src/unnamed/part_000`, `src/unnamed/part_001`, `src/types.ts`).

JavaScript strings are modelled as `List Char`; a nullable string is
`Option (List Char)`.  Fractional score arithmetic is modelled over `ℚ`
(the weights 1, 0.75, 0.5, 0.25, 0 and their sums are exact in both
models).  All definitions are written to mirror the source line by line;
comments cite the source location they embed.
-/

namespace QuizApp

/-- Model of the character class matched by the JavaScript regexp `\s`
(used by `normalize` in `Quiz.tsx` line 54): tab, line feed, vertical tab,
form feed, carriage return, space, NBSP, Ogham space mark, the
U+2000–U+200A spaces, line/paragraph separators, narrow NBSP, medium
mathematical space, ideographic space and the BOM. -/
def isWS (c : Char) : Bool :=
  c.toNat = 9 || c.toNat = 10 || c.toNat = 11 || c.toNat = 12 || c.toNat = 13 ||
  c.toNat = 32 || c.toNat = 160 || c.toNat = 5760 ||
  (8192 ≤ c.toNat && c.toNat ≤ 8202) || c.toNat = 8232 || c.toNat = 8233 ||
  c.toNat = 8239 || c.toNat = 8287 || c.toNat = 12288 || c.toNat = 65279

/-- Embeds `.replace(/[.,]$/, '')` (`Quiz.tsx` line 54): removes a single
trailing period or comma, if present. -/
def stripTrailing (l : List Char) : List Char :=
  match l.getLast? with
  | some c => if c = '.' ∨ c = ',' then l.dropLast else l
  | none => l

/-- Embeds the `normalize` helper (`Quiz.tsx` line 54):
`str.replace(/\s+/g, '').replace(/[.,]$/, '').toLowerCase()` — remove all
whitespace, strip one trailing period or comma, lower-case.  `Char.toLower`
models `toLowerCase` on the code points the application compares (ASCII
letters; all other characters are left unchanged by both). -/
def normalize (l : List Char) : List Char :=
  (stripTrailing (l.filter (fun c => !isWS c))).map Char.toLower

/-- Fuel-driven worker for `natRepr`: peels decimal digits from the right.
The fuel only forces structural recursion; `natReprAux_fuel` below shows
any fuel above the argument gives the same digits. -/
def natReprAux (fuel : Nat) (n : Nat) : List Char :=
  match fuel with
  | 0 => []
  | fuel + 1 =>
    if n < 10 then [Char.ofNat (48 + n)]
    else natReprAux fuel (n / 10) ++ [Char.ofNat (48 + n % 10)]

/-- Decimal representation of a natural number, embedding JavaScript
`Number.prototype.toString` for non-negative integers. -/
def natRepr (n : Nat) : List Char :=
  natReprAux (n + 1) n

/-- Decimal representation of an integer, embedding JavaScript
`Number.prototype.toString` (used for `(optionIndex + 1).toString()` in
`Quiz.tsx` line 62). -/
def intRepr (i : Int) : List Char :=
  if i < 0 then '-' :: natRepr i.natAbs else natRepr i.toNat

/-- The `circledNumbers` array (`Quiz.tsx` line 63). -/
def circledNumbers : List Char :=
  ['①', '②', '③', '④', '⑤', '⑥', '⑦', '⑧', '⑨', '⑩']

/-- Embeds the JavaScript array access `circledNumbers[optionIndex]`
(`Quiz.tsx` line 64), which yields `undefined` for any out-of-range index,
negative indices included. -/
def circledNumberAt (i : Int) : Option Char :=
  if i < 0 then none else circledNumbers.get? i.toNat

/-- Embeds `isAnswerMatch` (`Quiz.tsx` lines 50–77).  The early-return
`if`-chain of the source is written as a right-nested boolean disjunction,
which has the same first-hit-wins semantics.  The guard `if (!option)
return false` fires on `null` and on the empty string (both falsy). -/
def isAnswerMatch (option : Option (List Char)) (answer : List Char)
    (optionIndex : Int) : Bool :=
  match option with
  | none => false
  | some opt =>
    if opt = [] then false
    else
      let normOption := normalize opt
      let normAnswer := normalize answer
      let indexStr := intRepr (optionIndex + 1)
      let circledNumber := circledNumberAt optionIndex
      decide (normOption = normAnswer) ||
      decide (normAnswer = indexStr) ||
      (match circledNumber with
       | some g => decide (normAnswer = [g])
       | none => false) ||
      (indexStr ++ ['.']).isPrefixOf normAnswer ||
      (indexStr ++ [')']).isPrefixOf normAnswer ||
      ('(' :: (indexStr ++ [')'])).isPrefixOf normAnswer ||
      (match circledNumber with
       | some g => normAnswer.contains g
       | none => false)

/-- Question type tag (`src/types.ts`). -/
inductive QuestionType
  | multipleChoice
  | shortAnswer
  | ox
  | creativity
  deriving DecidableEq, Repr

/-- Rubric grade letters (`src/types.ts`). -/
inductive Grade
  | A
  | B
  | C
  | D
  | E
  deriving DecidableEq, Repr

/-- The fields of `QuizQuestion` (`src/types.ts`) that the scoring pass
reads: the type tag, the optional option list and the authoritative
answer. -/
structure QuizQuestion where
  questionType : QuestionType
  options : Option (List (List Char))
  answer : List Char
  deriving DecidableEq, Repr

/-- The repeated test `type === 'multiple-choice' || type === 'ox'`
(`Quiz.tsx` lines 342, 388). -/
def isMcOrOx (t : QuestionType) : Bool :=
  t = QuestionType.multipleChoice || t = QuestionType.ox

/-- The grade→weight mapping applied in the scoring pass (`Quiz.tsx`
lines 390–393): A=1, B=0.75, C=0.5, D=0.25, anything else (E or unset)
adds nothing. -/
def gradeWeight (g : Option Grade) : ℚ :=
  match g with
  | some Grade.A => 1
  | some Grade.B => 3/4
  | some Grade.C => 1/2
  | some Grade.D => 1/4
  | _ => 0

/-- The per-question body of the `safeQuestions.map` computing
`calculatedCorrectness` (`Quiz.tsx` lines 340–377).  For free-text types
the selected grade decides correctness (A, B and C return `true`, D and
anything else return `false`); for multiple-choice/OX the user answer is
located in the option list (`findIndex(opt => opt === ans)`) and
`isAnswerMatch` is consulted at that position, falling back to position
`-1` when the answer is not an option.  (The `totalEarnedPoints`
accumulation inside this first pass is discarded by the `totalEarnedPoints
= 0` reset on line 386 and is therefore not modelled here.) -/
def questionCorrect (q : QuizQuestion) (ans : Option (List Char))
    (grade : Option Grade) : Bool :=
  if !isMcOrOx q.questionType then
    match grade with
    | some Grade.A => true
    | some Grade.B => true
    | some Grade.C => true
    | some Grade.D => false
    | _ => false
  else
    let options := q.options.getD []
    match options.findIdx? (fun opt => decide (ans = some opt)) with
    | some selectedIndex => isAnswerMatch ans q.answer (selectedIndex : Int)
    | none => isAnswerMatch ans q.answer (-1)

/-- The `calculatedCorrectness` array (`Quiz.tsx` lines 340–377): the map
over `safeQuestions` with the parallel `userAnswers` and
`shortAnswerGrades` arrays read at the same index.  Parallel-array
indexing is rendered as simultaneous structural recursion; a missing
entry reads as `null`/unset, matching out-of-range array access. -/
def calculatedCorrectness : List QuizQuestion → List (Option (List Char)) →
    List (Option Grade) → List Bool
  | [], _, _ => []
  | q :: qs, ans, grs =>
      questionCorrect q (ans.headD none) (grs.headD none) ::
        calculatedCorrectness qs ans.tail grs.tail

/-- The `correctCount` (`Quiz.tsx` line 382):
`calculatedCorrectness.filter(c => c === true).length`. -/
def correctCount (qs : List QuizQuestion) (ans : List (Option (List Char)))
    (grs : List (Option Grade)) : Nat :=
  (calculatedCorrectness qs ans grs).count true

/-- The per-question earned weight of the final re-summation pass
(`Quiz.tsx` lines 387–397): free-text questions earn their grade weight,
multiple-choice/OX questions earn 1 when marked correct in
`calculatedCorrectness` and 0 otherwise. -/
def questionWeights : List QuizQuestion → List (Option Grade) → List Bool →
    List ℚ
  | [], _, _ => []
  | q :: qs, grs, corr =>
      (if !isMcOrOx q.questionType then gradeWeight (grs.headD none)
       else if corr.headD false then 1 else 0) ::
        questionWeights qs grs.tail corr.tail

/-- The `totalEarnedPoints` accumulator after the final re-summation
(`Quiz.tsx` lines 386–397). -/
def totalEarnedPoints (qs : List QuizQuestion) (grs : List (Option Grade))
    (corr : List Bool) : ℚ :=
  (questionWeights qs grs corr).sum

/-- The `scorePercentage` computed on the last `handleNext` (`Quiz.tsx`
line 399): `(totalEarnedPoints / safeQuestions.length) * 100`. -/
def scorePercentage (qs : List QuizQuestion)
    (ans : List (Option (List Char))) (grs : List (Option Grade)) : ℚ :=
  totalEarnedPoints qs grs (calculatedCorrectness qs ans grs) /
    (qs.length : ℚ) * 100

/-- The per-session mutable state of the `Quiz` component (`Quiz.tsx`
lines 119–130): the current index, the parallel per-question arrays and
the results flag. -/
structure QuizState where
  currentQuestionIndex : Nat
  userAnswers : List (Option (List Char))
  checkedStates : List Bool
  shortAnswerGrades : List (Option Grade)
  showResults : Bool
  deriving DecidableEq, Repr

/-- Placeholder question used to read `safeQuestions[currentQuestionIndex]`
at an out-of-range index; the component never does so (the index stays
below the question count), so theorems carry the in-range hypothesis. -/
def defaultQuestion : QuizQuestion :=
  ⟨QuestionType.shortAnswer, none, []⟩

/-- Embeds `isNextButtonDisabled` (`Quiz.tsx` line 699): for a checked
free-text question the next button stays disabled until a grade
(A/B/C/D/E) is selected. -/
def isNextButtonDisabled (qs : List QuizQuestion) (s : QuizState) : Bool :=
  s.checkedStates.getD s.currentQuestionIndex false &&
  !isMcOrOx (qs.getD s.currentQuestionIndex defaultQuestion).questionType &&
  decide (s.shortAnswerGrades.getD s.currentQuestionIndex none = none)

/-- The condition under which `handleNext` can fire (`Quiz.tsx` lines
861–864): the next/finish button is rendered only when `isAnswerChecked`
and is disabled while `isNextButtonDisabled`. -/
def advanceAllowed (qs : List QuizQuestion) (s : QuizState) : Bool :=
  s.checkedStates.getD s.currentQuestionIndex false &&
  !isNextButtonDisabled qs s

/-- The `advance` transition: `handleNext` (`Quiz.tsx` lines 334–404)
guarded by the button conditions above.  A disallowed invocation is a
no-op; otherwise the index advances, or on the last question the session
transitions to the completed (results) state. -/
def advance (qs : List QuizQuestion) (s : QuizState) : QuizState :=
  if advanceAllowed qs s then
    if s.currentQuestionIndex < qs.length - 1 then
      { s with currentQuestionIndex := s.currentQuestionIndex + 1 }
    else
      { s with showResults := true }
  else s

/-- The fields of a persisted `QuizResult` (`src/types.ts`). -/
structure QuizResult where
  id : List Char
  date : List Char
  standardId : List Char
  standardDescription : List Char
  subject : List Char
  score : ℚ
  totalQuestions : Nat
  correctAnswers : Nat
  questions : Option (List QuizQuestion)
  userAnswers : Option (List (Option (List Char)))
  correctness : Option (List (Option Bool))
  deriving DecidableEq

/-- The history update performed by `handleQuizSubmit`
(`src/unnamed/part_000` lines 325–349):
`setStudyHistory([...studyHistory, newResult])` — the new result is
appended at the end of the stored list. -/
def handleQuizSubmit (studyHistory : List QuizResult) (newResult : QuizResult) :
    List QuizResult :=
  studyHistory ++ [newResult]

/-- The history update performed by `handleDeleteHistoryItem`
(`src/unnamed/part_001` lines 316–321):
`setStudyHistory(prev => prev.filter(item => item.id !== id))`. -/
def handleDeleteHistoryItem (studyHistory : List QuizResult)
    (id : List Char) : List QuizResult :=
  studyHistory.filter (fun item => !decide (item.id = id))

/-- Modelled from the spec: the §4.1 match pipeline exactly as the claim
words it — normalize both strings, then try the five rules in order with
the first hit winning; no other step.  Used to compare against the
source's `isAnswerMatch`, which additionally rejects null/empty
candidates up front. -/
def specAnswerMatch (candidate : List Char) (answer : List Char)
    (position : Int) : Bool :=
  let normCandidate := normalize candidate
  let normAnswer := normalize answer
  let indexStr := intRepr (position + 1)
  let circledNumber := circledNumberAt position
  decide (normCandidate = normAnswer) ||
  decide (normAnswer = indexStr) ||
  (match circledNumber with
   | some g => decide (normAnswer = [g])
   | none => false) ||
  (indexStr ++ ['.']).isPrefixOf normAnswer ||
  (indexStr ++ [')']).isPrefixOf normAnswer ||
  ('(' :: (indexStr ++ [')'])).isPrefixOf normAnswer ||
  (match circledNumber with
   | some g => normAnswer.contains g
   | none => false)


-- Character-level helper lemmas

theorem char_toNat_ofNat {n : Nat} (h : n < 55296) : (Char.ofNat n).toNat = n := by
  have hv : n.isValidChar := Or.inl h
  simp [Char.ofNat, hv, Char.ofNatAux, Char.toNat, UInt32.toNat]

theorem toLower_toNat (c : Char) :
    c.toLower.toNat = if 65 ≤ c.toNat ∧ c.toNat ≤ 90 then c.toNat + 32 else c.toNat := by
  rw [Char.toLower]
  by_cases h : 65 ≤ c.toNat ∧ c.toNat ≤ 90
  · rw [if_pos ⟨h.1, h.2⟩, if_pos h, char_toNat_ofNat (by omega)]
  · rw [if_neg ?_, if_neg h]
    intro hc
    exact h ⟨hc.1, hc.2⟩

theorem toLower_eq_self {c : Char} (h : c.toNat < 65 ∨ 90 < c.toNat) : c.toLower = c := by
  rw [Char.toLower, if_neg]
  intro hc
  omega

theorem toLower_toLower (c : Char) : c.toLower.toLower = c.toLower := by
  by_cases h : 65 ≤ c.toNat ∧ c.toNat ≤ 90
  · have h1 : c.toLower.toNat = c.toNat + 32 := by rw [toLower_toNat, if_pos h]
    exact toLower_eq_self (by omega)
  · have h1 : c.toLower.toNat = c.toNat := by rw [toLower_toNat, if_neg h]
    exact toLower_eq_self (by omega)

theorem char_eq_of_toNat_eq {c d : Char} (h : c.toNat = d.toNat) : c = d :=
  Char.eq_of_val_eq (UInt32.ext h)

theorem isWS_eq_false {c : Char}
    (h : (33 ≤ c.toNat ∧ c.toNat ≤ 159) ∨ (8288 ≤ c.toNat ∧ c.toNat ≤ 12287)) :
    isWS c = false := by
  simp only [isWS, Bool.or_eq_false_iff, decide_eq_false_iff_not, Bool.and_eq_false_iff,
    decide_eq_false_iff_not, not_le]
  omega

theorem isWS_toLower {c : Char} (h : isWS c = false) : isWS c.toLower = false := by
  by_cases hc : 65 ≤ c.toNat ∧ c.toNat ≤ 90
  · have h1 : c.toLower.toNat = c.toNat + 32 := by rw [toLower_toNat, if_pos hc]
    exact isWS_eq_false (by omega)
  · have h1 : c.toLower.toNat = c.toNat := by rw [toLower_toNat, if_neg hc]
    rw [show c.toLower = c from char_eq_of_toNat_eq h1]
    exact h

-- normalize structure lemmas

theorem mem_stripTrailing {c : Char} {l : List Char} (h : c ∈ stripTrailing l) : c ∈ l := by
  unfold stripTrailing at h
  split at h
  · split at h
    · exact List.dropLast_subset _ h
    · exact h
  · exact h

theorem mem_normalize_not_isWS {c : Char} {l : List Char} (h : c ∈ normalize l) :
    isWS c = false := by
  unfold normalize at h
  obtain ⟨d, hd, rfl⟩ := List.mem_map.mp h
  have hd' : d ∈ (l.filter (fun c => !isWS c)) := mem_stripTrailing hd
  have := List.of_mem_filter hd'
  simp only [Bool.not_eq_true'] at this
  exact isWS_toLower this

theorem filter_normalize (l : List Char) :
    (normalize l).filter (fun c => !isWS c) = normalize l := by
  rw [List.filter_eq_self]
  intro c hc
  simp [mem_normalize_not_isWS hc]

theorem map_toLower_normalize (l : List Char) :
    (normalize l).map Char.toLower = normalize l := by
  unfold normalize
  rw [List.map_map]
  apply List.map_congr_left
  intro c _
  exact toLower_toLower c

theorem map_id_of_fixed {f : Char → Char} {l : List Char} (h : ∀ x ∈ l, f x = x) :
    l.map f = l := by
  induction l with
  | nil => rfl
  | cons a t ih =>
    simp only [List.map_cons, h a (List.mem_cons_self a t)]
    rw [ih (fun x hx => h x (List.mem_cons_of_mem a hx))]

theorem normalize_eq_self {l : List Char}
    (hws : ∀ c ∈ l, isWS c = false)
    (hlow : ∀ c ∈ l, c.toLower = c)
    (hlast : ∀ c, l.getLast? = some c → ¬(c = '.' ∨ c = ',')) :
    normalize l = l := by
  unfold normalize
  have h1 : l.filter (fun c => !isWS c) = l := by
    rw [List.filter_eq_self]
    intro c hc
    simp [hws c hc]
  rw [h1]
  have h2 : stripTrailing l = l := by
    unfold stripTrailing
    split
    · next c heq => rw [if_neg (hlast c heq)]
    · rfl
  rw [h2]
  exact map_id_of_fixed hlow

-- natRepr lemmas

theorem natReprAux_fuel {n f g : Nat} (hf : n < f) (hg : n < g) :
    natReprAux f n = natReprAux g n := by
  induction n using Nat.strong_induction_on generalizing f g with
  | _ n ih =>
    match f, g with
    | f + 1, g + 1 =>
      by_cases h : n < 10
      · simp [natReprAux, h]
      · simp only [natReprAux, if_neg h]
        exact congrArg (· ++ [Char.ofNat (48 + n % 10)])
          (ih (n / 10) (by omega) (f := f) (g := g) (by omega) (by omega))

theorem natRepr_unfold (n : Nat) :
    natRepr n = if n < 10 then [Char.ofNat (48 + n)]
      else natRepr (n / 10) ++ [Char.ofNat (48 + n % 10)] := by
  unfold natRepr
  by_cases h : n < 10
  · simp [natReprAux, h]
  · rw [if_neg h]
    conv_lhs => rw [natReprAux, if_neg h]
    exact congrArg (· ++ [Char.ofNat (48 + n % 10)])
      (natReprAux_fuel (f := n) (g := n / 10 + 1) (by omega) (by omega))

theorem natRepr_ne_nil (n : Nat) : natRepr n ≠ [] := by
  rw [natRepr_unfold]
  split <;> simp

theorem mem_natRepr_digit {n : Nat} {c : Char} (h : c ∈ natRepr n) :
    48 ≤ c.toNat ∧ c.toNat ≤ 57 := by
  induction n using Nat.strong_induction_on generalizing c with
  | _ n ih =>
    rw [natRepr_unfold] at h
    by_cases hn : n < 10
    · rw [if_pos hn] at h
      rcases List.mem_singleton.mp h with rfl
      rw [char_toNat_ofNat (by omega)]
      omega
    · rw [if_neg hn] at h
      rcases List.mem_append.mp h with h | h
      · exact ih (n / 10) (by omega) h
      · rcases List.mem_singleton.mp h with rfl
        rw [char_toNat_ofNat (by omega)]
        omega

/-- Decodes a digit list back to the number it denotes; used only to show
`natRepr` is injective. -/
def reprVal (l : List Char) : Nat :=
  l.foldl (fun a c => 10 * a + (c.toNat - 48)) 0

theorem reprVal_natRepr (n : Nat) : reprVal (natRepr n) = n := by
  induction n using Nat.strong_induction_on with
  | _ n ih =>
    rw [natRepr_unfold]
    by_cases hn : n < 10
    · rw [if_pos hn]
      simp [reprVal, List.foldl, char_toNat_ofNat (show 48 + n < 55296 by omega)]
    · rw [if_neg hn]
      have hconc : ∀ (xs : List Char) (c : Char),
          reprVal (xs ++ [c]) = 10 * reprVal xs + (c.toNat - 48) := by
        intro xs c
        simp [reprVal, List.foldl_append]
      rw [hconc, ih (n / 10) (by omega),
        char_toNat_ofNat (show 48 + n % 10 < 55296 by omega)]
      omega

theorem natRepr_injective {a b : Nat} (h : natRepr a = natRepr b) : a = b := by
  have := reprVal_natRepr a
  rw [h, reprVal_natRepr] at this
  omega

theorem normalize_natRepr (n : Nat) : normalize (natRepr n) = natRepr n := by
  apply normalize_eq_self
  · intro c hc
    have := mem_natRepr_digit hc
    exact isWS_eq_false (by omega)
  · intro c hc
    have := mem_natRepr_digit hc
    exact toLower_eq_self (by omega)
  · intro c hc
    have hm : c ∈ natRepr n := List.mem_of_mem_getLast? hc
    have := mem_natRepr_digit hm
    rintro (rfl | rfl) <;> simp_all

-- circled-number lemmas

theorem circledNumberAt_natCast (p : Nat) :
    circledNumberAt (p : Int) = circledNumbers.get? p := by
  unfold circledNumberAt
  rw [if_neg (by omega)]
  simp

theorem mem_of_circledNumberAt {i : Int} {g : Char} (h : circledNumberAt i = some g) :
    g ∈ circledNumbers := by
  unfold circledNumberAt at h
  split at h
  · exact absurd h (by simp)
  · exact List.get?_mem h

theorem circled_toNat {g : Char} (h : g ∈ circledNumbers) :
    9312 ≤ g.toNat ∧ g.toNat ≤ 9321 := by
  simp only [circledNumbers, List.mem_cons, List.not_mem_nil, or_false] at h
  rcases h with rfl | rfl | rfl | rfl | rfl | rfl | rfl | rfl | rfl | rfl <;> decide

theorem circledNumberAt_inj {i j : Int} {g : Char}
    (hi : circledNumberAt i = some g) (hj : circledNumberAt j = some g) : i = j := by
  unfold circledNumberAt at hi hj
  split at hi
  · exact absurd hi (by simp)
  · split at hj
    · exact absurd hj (by simp)
    · next hi0 =>
      next hj0 =>
      rw [List.get?_eq_getElem?] at hi hj
      have hlen : i.toNat < circledNumbers.length :=
        (List.getElem?_eq_some.mp hi).1
      have := List.getElem?_inj hlen (by decide) (hi.trans hj.symm)
      omega

theorem normalize_circled {g : Char} (h : g ∈ circledNumbers) :
    normalize [g] = [g] := by
  have hg := circled_toNat h
  apply normalize_eq_self
  · intro c hc
    rcases List.mem_singleton.mp hc with rfl
    exact isWS_eq_false (by omega)
  · intro c hc
    rcases List.mem_singleton.mp hc with rfl
    exact toLower_eq_self (by omega)
  · intro c hc
    simp only [List.getLast?_singleton, Option.some_inj] at hc
    subst hc
    rintro (rfl | rfl) <;> simp_all

-- intRepr and isAnswerMatch unfolding

theorem intRepr_natCast (n : Nat) : intRepr (n : Int) = natRepr n := by
  unfold intRepr
  rw [if_neg (by omega)]
  simp

theorem intRepr_natCast_add_one (p : Nat) : intRepr ((p : Int) + 1) = natRepr (p + 1) := by
  have h : ((p : Int) + 1) = ((p + 1 : Nat) : Int) := by push_cast; ring
  rw [h, intRepr_natCast]

theorem isAnswerMatch_some {opt : List Char} (ans : List Char) (idx : Int)
    (h : opt ≠ []) :
    isAnswerMatch (some opt) ans idx =
      (decide (normalize opt = normalize ans) ||
       decide (normalize ans = intRepr (idx + 1)) ||
       (match circledNumberAt idx with
        | some g => decide (normalize ans = [g])
        | none => false) ||
       (intRepr (idx + 1) ++ ['.']).isPrefixOf (normalize ans) ||
       (intRepr (idx + 1) ++ [')']).isPrefixOf (normalize ans) ||
       ('(' :: (intRepr (idx + 1) ++ [')'])).isPrefixOf (normalize ans) ||
       (match circledNumberAt idx with
        | some g => (normalize ans).contains g
        | none => false)) := by
  simp only [isAnswerMatch]
  rw [if_neg h]

theorem specAnswerMatch_eq {opt : List Char} (ans : List Char) (idx : Int)
    (h : opt ≠ []) :
    isAnswerMatch (some opt) ans idx = specAnswerMatch opt ans idx := by
  rw [isAnswerMatch_some ans idx h]
  rfl

-- helper lemmas for the position-discrimination analysis

theorem prefixOf_natRepr_eq_false {l : List Char} {m : Nat} {c : Char}
    (hcl : c ∈ l) (hc : c.toNat < 48 ∨ 57 < c.toNat) :
    l.isPrefixOf (natRepr m) = false := by
  rw [Bool.eq_false_iff]
  intro h
  rw [List.isPrefixOf_iff_prefix] at h
  have hmem : c ∈ natRepr m := h.subset hcl
  have := mem_natRepr_digit hmem
  omega

theorem prefixOf_singleton_eq_false {l : List Char} {g : Char} (hl : 2 ≤ l.length) :
    l.isPrefixOf [g] = false := by
  rw [Bool.eq_false_iff]
  intro h
  rw [List.isPrefixOf_iff_prefix] at h
  have := h.length_le
  simp at this
  omega

theorem contains_natRepr_eq_false {m : Nat} {g : Char}
    (hg : g.toNat < 48 ∨ 57 < g.toNat) :
    (natRepr m).contains g = false := by
  rw [Bool.eq_false_iff]
  intro h
  have hmem : g ∈ natRepr m := List.elem_iff.mp h
  have := mem_natRepr_digit hmem
  omega

theorem natRepr_ne_singleton_circled {m : Nat} {g : Char} (hg : g ∈ circledNumbers) :
    natRepr m ≠ [g] := by
  intro h
  have hmem : g ∈ natRepr m := h ▸ List.mem_singleton.mpr rfl
  have := mem_natRepr_digit hmem
  have := circled_toNat hg
  omega

theorem two_le_length_concat {xs : List Char} {c : Char} (h : xs ≠ []) :
    2 ≤ (xs ++ [c]).length := by
  rcases xs with _ | ⟨a, t⟩
  · exact absurd rfl h
  · simp

-- scoring lemmas

theorem gradeWeight_nonneg (g : Option Grade) : 0 ≤ gradeWeight g := by
  rcases g with _ | g
  · norm_num [gradeWeight]
  · cases g <;> norm_num [gradeWeight]

theorem gradeWeight_le_one (g : Option Grade) : gradeWeight g ≤ 1 := by
  rcases g with _ | g
  · norm_num [gradeWeight]
  · cases g <;> norm_num [gradeWeight]

theorem mem_questionWeights_bounds :
    ∀ {qs : List QuizQuestion} {grs : List (Option Grade)} {corr : List Bool}
      {w : ℚ}, w ∈ questionWeights qs grs corr → 0 ≤ w ∧ w ≤ 1 := by
  intro qs
  induction qs with
  | nil => intro grs corr w h; exact absurd h (by simp [questionWeights])
  | cons q t ih =>
    intro grs corr w h
    rw [questionWeights] at h
    rcases List.mem_cons.mp h with rfl | h
    · split
      · exact ⟨gradeWeight_nonneg _, gradeWeight_le_one _⟩
      · split <;> norm_num
    · exact ih h

theorem questionWeights_length (qs : List QuizQuestion) (grs : List (Option Grade))
    (corr : List Bool) : (questionWeights qs grs corr).length = qs.length := by
  induction qs generalizing grs corr with
  | nil => rfl
  | cons q t ih => simp [questionWeights, ih]

theorem sum_nonneg_of_mem {l : List ℚ} (h : ∀ x ∈ l, 0 ≤ x) : 0 ≤ l.sum := by
  induction l with
  | nil => simp
  | cons a t ih =>
    rw [List.sum_cons]
    have := h a (List.mem_cons_self a t)
    have := ih (fun x hx => h x (List.mem_cons_of_mem a hx))
    linarith

theorem sum_le_length_of_mem {l : List ℚ} (h : ∀ x ∈ l, x ≤ 1) :
    l.sum ≤ (l.length : ℚ) := by
  induction l with
  | nil => simp
  | cons a t ih =>
    rw [List.sum_cons, List.length_cons]
    have := h a (List.mem_cons_self a t)
    have := ih (fun x hx => h x (List.mem_cons_of_mem a hx))
    push_cast
    linarith

theorem sum_eq_length_iff {l : List ℚ} (h : ∀ x ∈ l, x ≤ 1) :
    l.sum = (l.length : ℚ) ↔ ∀ x ∈ l, x = 1 := by
  induction l with
  | nil => simp
  | cons a t ih =>
    have ha := h a (List.mem_cons_self a t)
    have ht : ∀ x ∈ t, x ≤ 1 := fun x hx => h x (List.mem_cons_of_mem a hx)
    have hts := sum_le_length_of_mem ht
    rw [List.sum_cons]
    constructor
    · intro hsum
      have hlen : ((a :: t).length : ℚ) = (t.length : ℚ) + 1 := by push_cast [List.length_cons]; ring
      rw [hlen] at hsum
      have ha1 : a = 1 := by linarith
      have hts1 : t.sum = (t.length : ℚ) := by linarith
      intro x hx
      rcases List.mem_cons.mp hx with rfl | hx
      · exact ha1
      · exact (ih ht).mp hts1 x hx
    · intro hall
      have ha1 : a = 1 := hall a (List.mem_cons_self a t)
      have hts1 : t.sum = (t.length : ℚ) :=
        (ih ht).mpr (fun x hx => hall x (List.mem_cons_of_mem a hx))
      rw [ha1, hts1, List.length_cons]
      push_cast
      ring


/-! ## Claim theorems -/

/-- Claim C2: for every completed session the final score equals
(sum of earned weights / question count) × 100, always lies in [0, 100],
and equals 100 exactly when every question's earned weight is 1. -/
theorem score_linear_bounded :
    ∀ (qs : List QuizQuestion) (ans : List (Option (List Char)))
      (grs : List (Option Grade)), qs ≠ [] →
      scorePercentage qs ans grs =
        (questionWeights qs grs (calculatedCorrectness qs ans grs)).sum /
          (qs.length : ℚ) * 100 ∧
      0 ≤ scorePercentage qs ans grs ∧ scorePercentage qs ans grs ≤ 100 ∧
      (scorePercentage qs ans grs = 100 ↔
        ∀ w ∈ questionWeights qs grs (calculatedCorrectness qs ans grs), w = 1) := by
  intro qs ans grs hqs
  have hN : (0 : ℚ) < (qs.length : ℚ) := by
    have : 0 < qs.length := List.length_pos.mpr hqs
    exact_mod_cast this
  have h0 : 0 ≤ (questionWeights qs grs (calculatedCorrectness qs ans grs)).sum :=
    sum_nonneg_of_mem (fun x hx => (mem_questionWeights_bounds hx).1)
  have hlen : ((questionWeights qs grs (calculatedCorrectness qs ans grs)).length : ℚ)
      = (qs.length : ℚ) := by rw [questionWeights_length]
  have h1 : (questionWeights qs grs (calculatedCorrectness qs ans grs)).sum ≤
      (qs.length : ℚ) := by
    rw [← hlen]
    exact sum_le_length_of_mem (fun x hx => (mem_questionWeights_bounds hx).2)
  refine ⟨rfl, ?_, ?_, ?_⟩
  · unfold scorePercentage totalEarnedPoints
    positivity
  · unfold scorePercentage totalEarnedPoints
    rw [div_mul_eq_mul_div, div_le_iff₀ hN]
    nlinarith
  · unfold scorePercentage totalEarnedPoints
    rw [div_mul_eq_mul_div, div_eq_iff hN.ne']
    constructor
    · intro h
      have hsum : (questionWeights qs grs (calculatedCorrectness qs ans grs)).sum
          = (qs.length : ℚ) := by linarith
      rw [← hlen] at hsum
      exact (sum_eq_length_iff (fun x hx => (mem_questionWeights_bounds hx).2)).mp hsum
    · intro h
      have hsum := (sum_eq_length_iff
        (fun x hx => (mem_questionWeights_bounds hx).2)).mpr h
      rw [hlen] at hsum
      rw [hsum]
      ring

/-- Witness for C2: the score bounds instantiated on a one-question
session graded A. -/
theorem score_linear_bounded_witness :
    0 ≤ scorePercentage [⟨QuestionType.shortAnswer, none, ['m']⟩] [some ['u']]
        [some Grade.A] ∧
      scorePercentage [⟨QuestionType.shortAnswer, none, ['m']⟩] [some ['u']]
        [some Grade.A] ≤ 100 :=
  ⟨(score_linear_bounded [⟨QuestionType.shortAnswer, none, ['m']⟩] [some ['u']]
      [some Grade.A] (by simp)).2.1,
   (score_linear_bounded [⟨QuestionType.shortAnswer, none, ['m']⟩] [some ['u']]
      [some Grade.A] (by simp)).2.2.1⟩

/-- Claim C1 (amended): a free-text question counts toward the correct
count exactly when its selected grade weight is ≥ 0.5, i.e. grade A, B or
C — not, as claimed, only at weight ≥ 0.75.  The D-divergence part of the
claim holds: on the two-question session graded A and D the earned-weight
score is 62.5 while the correct count is 1. -/
theorem freeText_correct_iff :
    (∀ (q : QuizQuestion) (ans : Option (List Char)) (grade : Option Grade),
        isMcOrOx q.questionType = false →
        (questionCorrect q ans grade = true ↔ (1/2 : ℚ) ≤ gradeWeight grade)) ∧
    (correctCount
        [⟨QuestionType.shortAnswer, none, ['m']⟩, ⟨QuestionType.shortAnswer, none, ['m']⟩]
        [some ['u'], some ['u']] [some Grade.A, some Grade.D] = 1 ∧
      scorePercentage
        [⟨QuestionType.shortAnswer, none, ['m']⟩, ⟨QuestionType.shortAnswer, none, ['m']⟩]
        [some ['u'], some ['u']] [some Grade.A, some Grade.D] = 125 / 2) := by
  constructor
  · intro q ans grade hq
    unfold questionCorrect
    rw [hq]
    simp only [Bool.not_false, if_true]
    rcases grade with _ | g
    · norm_num [gradeWeight]
    · cases g <;> norm_num [gradeWeight]
  · constructor
    · decide
    · unfold scorePercentage
      rw [show totalEarnedPoints
          [⟨QuestionType.shortAnswer, none, ['m']⟩, ⟨QuestionType.shortAnswer, none, ['m']⟩]
          [some Grade.A, some Grade.D]
          (calculatedCorrectness
            [⟨QuestionType.shortAnswer, none, ['m']⟩, ⟨QuestionType.shortAnswer, none, ['m']⟩]
            [some ['u'], some ['u']] [some Grade.A, some Grade.D]) = 1 + (1/4 + 0) from rfl]
      norm_num

/-- Counterexample to C1 as stated: a C-graded free-text question has
weight 0.5 < 0.75 yet is counted as correct by the scoring pass. -/
theorem freeText_correct_counterexample :
    questionCorrect ⟨QuestionType.shortAnswer, none, ['m']⟩ (some ['u'])
        (some Grade.C) = true ∧
      ¬ ((3/4 : ℚ) ≤ gradeWeight (some Grade.C)) := by
  constructor
  · decide
  · norm_num [gradeWeight]

/-- Witness for C1 (amended): the grade-A instance of the equivalence. -/
theorem freeText_correct_iff_witness :
    questionCorrect ⟨QuestionType.shortAnswer, none, ['m']⟩ (some ['u'])
        (some Grade.A) = true ↔ (1/2 : ℚ) ≤ gradeWeight (some Grade.A) :=
  freeText_correct_iff.1 ⟨QuestionType.shortAnswer, none, ['m']⟩ (some ['u'])
    (some Grade.A) (by decide)

/-- Claim C3 (amended): for every non-null, non-empty candidate the
evaluator coincides with the normalize-then-five-rules pipeline the spec
describes; null and empty candidates are rejected before the pipeline. -/
theorem evaluator_pipeline_nonempty :
    ∀ (candidate answer : List Char) (position : Int), candidate ≠ [] →
      isAnswerMatch (some candidate) answer position =
        specAnswerMatch candidate answer position := by
  intro candidate answer position h
  exact specAnswerMatch_eq answer position h

/-- Counterexample to C3 as stated: on the empty candidate with answer
"1" at position 0 the spec pipeline matches by rule 2 (the rule reads only
the answer), but the evaluator returns false from its falsy guard. -/
theorem evaluator_pipeline_counterexample :
    isAnswerMatch (some []) ['1'] 0 = false ∧ specAnswerMatch [] ['1'] 0 = true := by
  constructor
  · rfl
  · decide

/-- Witness for C3 (amended) at a concrete non-empty candidate. -/
theorem evaluator_pipeline_witness :
    isAnswerMatch (some ['a']) ['a'] 0 = specAnswerMatch ['a'] ['a'] 0 :=
  evaluator_pipeline_nonempty ['a'] ['a'] 0 (by decide)

/-- Claim C4: with the sentinel position -1 (the free-text fallback) the
code still evaluates the decimal-index rules with position string "0", so
the candidate "x" with authoritative answer "0" matches even though the
direct text comparison fails; only the glyph lookup is disabled.  This
contradicts the documented fallback-to-direct-comparison behaviour. -/
theorem sentinel_position_bug :
    isAnswerMatch (some ['x']) ['0'] (-1) = true ∧
      normalize ['x'] ≠ normalize ['0'] ∧
      circledNumberAt (-1) = none := by
  refine ⟨by decide, by decide, by decide⟩

/-- Claim C5 (amended): an authoritative answer equal to the decimal
numeral p+1, or to the circled glyph for position p, matches the option at
position p, and matches no other position q whose option text does not
itself normalize to the (normalized) answer — the text-equality escape is
the one exception to uniqueness and is exercised by the counterexample. -/
theorem position_match_unique :
    ∀ (opts : List (List Char)) (p q : Nat) (ans : List Char)
      (hp : p < opts.length) (hq : q < opts.length),
      (ans = natRepr (p + 1) ∨ ∃ g, circledNumberAt (p : Int) = some g ∧ ans = [g]) →
      opts.get ⟨p, hp⟩ ≠ [] →
      isAnswerMatch (some (opts.get ⟨p, hp⟩)) ans (p : Int) = true ∧
      (q ≠ p → normalize (opts.get ⟨q, hq⟩) ≠ normalize ans →
        isAnswerMatch (some (opts.get ⟨q, hq⟩)) ans (q : Int) = false) := by
  intro opts p q ans hp hq hans hne
  constructor
  · rw [isAnswerMatch_some ans _ hne]
    rcases hans with rfl | ⟨g, hg, rfl⟩
    · have h2 : normalize (natRepr (p + 1)) = intRepr ((p : Int) + 1) := by
        rw [normalize_natRepr, intRepr_natCast_add_one]
      simp [h2]
    · have h3 : normalize [g] = [g] := normalize_circled (mem_of_circledNumberAt hg)
      simp [hg, h3]
  · intro hqp hnne
    simp only [List.get_eq_getElem] at hnne
    by_cases hq0 : opts.get ⟨q, hq⟩ = []
    · rw [hq0]
      simp [isAnswerMatch]
    · rw [isAnswerMatch_some ans _ hq0]
      rw [intRepr_natCast_add_one q]
      have hpq' : p + 1 ≠ q + 1 := by omega
      rcases hans with rfl | ⟨g, hg, rfl⟩
      · rw [normalize_natRepr] at hnne ⊢
        have hd1 : natRepr (p + 1) ≠ natRepr (q + 1) := fun h => hpq' (natRepr_injective h)
        have hd2 : (natRepr (q + 1) ++ ['.']).isPrefixOf (natRepr (p + 1)) = false :=
          prefixOf_natRepr_eq_false (c := '.') (by simp) (by decide)
        have hd3 : (natRepr (q + 1) ++ [')']).isPrefixOf (natRepr (p + 1)) = false :=
          prefixOf_natRepr_eq_false (c := ')') (by simp) (by decide)
        have hd4 : ('(' :: (natRepr (q + 1) ++ [')'])).isPrefixOf (natRepr (p + 1)) = false :=
          prefixOf_natRepr_eq_false (c := '(') (List.mem_cons_self _ _) (by decide)
        rcases hcq : circledNumberAt (q : Int) with _ | g'
        · simp [hnne, hd1, hd2, hd3, hd4]
        · have hd5 : natRepr (p + 1) ≠ [g'] :=
            natRepr_ne_singleton_circled (mem_of_circledNumberAt hcq)
          have hg' := circled_toNat (mem_of_circledNumberAt hcq)
          have hd6 : (natRepr (p + 1)).contains g' = false :=
            contains_natRepr_eq_false (by omega)
          have hd7 : g' ∉ natRepr (p + 1) := fun h => by
            have := mem_natRepr_digit h
            omega
          simp [hnne, hd1, hd2, hd3, hd4, hd5, hd6, hd7]
      · have hgl : normalize [g] = [g] := normalize_circled (mem_of_circledNumberAt hg)
        rw [hgl] at hnne ⊢
        have he1 : [g] ≠ natRepr (q + 1) := fun h =>
          natRepr_ne_singleton_circled (mem_of_circledNumberAt hg) h.symm
        have he2 : (natRepr (q + 1) ++ ['.']).isPrefixOf [g] = false :=
          prefixOf_singleton_eq_false (two_le_length_concat (natRepr_ne_nil _))
        have he3 : (natRepr (q + 1) ++ [')']).isPrefixOf [g] = false :=
          prefixOf_singleton_eq_false (two_le_length_concat (natRepr_ne_nil _))
        have he4 : ('(' :: (natRepr (q + 1) ++ [')'])).isPrefixOf [g] = false :=
          prefixOf_singleton_eq_false (by simp)
        rcases hcq : circledNumberAt (q : Int) with _ | g'
        · simp [hnne, he1, he2, he3, he4]
        · have hgg' : g ≠ g' := by
            intro h
            subst h
            exact hqp (by
              have := circledNumberAt_inj hcq hg
              omega)
          have he5 : ([g] : List Char) ≠ [g'] := by simpa using hgg'
          have he6 : ([g] : List Char).contains g' = false := by
            rw [Bool.eq_false_iff]
            intro h
            exact hgg' (List.mem_singleton.mp (List.elem_iff.mp h)).symm
          simp [hnne, he1, he2, he3, he4, he5, he6, hgg'.symm]

/-- Counterexample to C5 as stated: with answer "2" — the decimal numeral
of position 1 — the option "2" sitting at position 0 also matches, through
the direct text-equality rule, so the answer does not match position 1
alone. -/
theorem position_match_counterexample :
    ['2'] = natRepr (1 + 1) ∧
      isAnswerMatch (some ['2']) ['2'] ((0 : Nat) : Int) = true ∧ (0 : Nat) ≠ 1 := by
  refine ⟨by decide, by decide, by omega⟩

/-- Witness for C5 (amended): the spec scenario with options
["①3", "②5", "③7"] and answer "②": position 1 matches, position 0 does
not. -/
theorem position_match_unique_witness :
    isAnswerMatch (some ([['①', '3'], ['②', '5'], ['③', '7']].get ⟨1, by norm_num⟩))
        ['②'] ((1 : Nat) : Int) = true ∧
      ((0 : Nat) ≠ 1 →
        normalize ([['①', '3'], ['②', '5'], ['③', '7']].get ⟨0, by norm_num⟩) ≠
          normalize ['②'] →
        isAnswerMatch (some ([['①', '3'], ['②', '5'], ['③', '7']].get ⟨0, by norm_num⟩))
          ['②'] ((0 : Nat) : Int) = false) :=
  position_match_unique [['①', '3'], ['②', '5'], ['③', '7']] 1 0 ['②']
    (by norm_num) (by norm_num) (Or.inr ⟨'②', by decide, rfl⟩) (by decide)

/-- Claim C6 (amended): normalization is idempotent exactly on the strings
whose normalized form is unchanged by another trailing-punctuation strip —
that is, does not end in a period or comma.  (It is not idempotent in
general: only one trailing period/comma is stripped per pass.) -/
theorem normalize_idempotent_conditional :
    ∀ (l : List Char), stripTrailing (normalize l) = normalize l →
      normalize (normalize l) = normalize l := by
  intro l h
  conv_lhs => rw [normalize]
  rw [filter_normalize, h, map_toLower_normalize]

/-- Counterexample to C6 as stated: ".." normalizes to ".", which
normalizes again to "", so normalize ∘ normalize ≠ normalize. -/
theorem normalize_idempotent_counterexample :
    normalize (normalize ['.', '.']) ≠ normalize ['.', '.'] := by decide

/-- Witness for C6 (amended) on the string "Ab.". -/
theorem normalize_idempotent_witness :
    normalize (normalize ['A', 'b', '.']) = normalize ['A', 'b', '.'] :=
  normalize_idempotent_conditional ['A', 'b', '.'] (by decide)

/-- Claim C7: the evaluator is a total, deterministic boolean function of
its three inputs — every input (empty strings and arbitrary integer
positions included) yields `true` or `false`, equal inputs yield equal
outputs, and the out-of-range glyph lookup that a thrown error would have
to come from is `none` for every negative or ≥ 10 position. -/
theorem evaluator_total :
    (∀ (option : Option (List Char)) (answer : List Char) (idx : Int),
        isAnswerMatch option answer idx = true ∨
          isAnswerMatch option answer idx = false) ∧
    (∀ (option : Option (List Char)) (answer : List Char) (i j : Int),
        i = j → isAnswerMatch option answer i = isAnswerMatch option answer j) ∧
    (∀ i : Int, i < 0 ∨ 10 ≤ i → circledNumberAt i = none) := by
  refine ⟨?_, ?_, ?_⟩
  · intro o a i
    exact Bool.eq_false_or_eq_true (isAnswerMatch o a i)
  · intro o a i j h
    rw [h]
  · intro i hi
    unfold circledNumberAt
    rcases hi with hi | hi
    · rw [if_pos hi]
    · rw [if_neg (by omega)]
      rw [List.get?_eq_none]
      simp [circledNumbers]
      omega

/-- Witness for C7 at concrete inputs, including a negative position. -/
theorem evaluator_total_witness :
    isAnswerMatch (some ['x']) ['y'] 3 = isAnswerMatch (some ['x']) ['y'] 3 ∧
      circledNumberAt (-2) = none :=
  ⟨evaluator_total.2.1 (some ['x']) ['y'] 3 3 rfl,
   evaluator_total.2.2 (-2) (Or.inl (by norm_num))⟩

/-- Claim C8: the advance transition is permitted only when the current
question is checked and, for free-text questions, a grade has been
selected; invoking it on a checked ungraded free-text question leaves the
whole session state unchanged. -/
theorem advance_guard :
    (∀ (qs : List QuizQuestion) (s : QuizState), advanceAllowed qs s = true →
        s.checkedStates.getD s.currentQuestionIndex false = true ∧
        (isMcOrOx (qs.getD s.currentQuestionIndex defaultQuestion).questionType = false →
          s.shortAnswerGrades.getD s.currentQuestionIndex none ≠ none)) ∧
    (∀ (qs : List QuizQuestion) (s : QuizState),
        s.checkedStates.getD s.currentQuestionIndex false = true →
        isMcOrOx (qs.getD s.currentQuestionIndex defaultQuestion).questionType = false →
        s.shortAnswerGrades.getD s.currentQuestionIndex none = none →
        advance qs s = s) := by
  constructor
  · intro qs s h
    rw [advanceAllowed, Bool.and_eq_true, Bool.not_eq_true'] at h
    obtain ⟨hch, hd⟩ := h
    refine ⟨hch, ?_⟩
    intro hmc hgr
    rw [isNextButtonDisabled, hch, hmc, hgr] at hd
    simp at hd
  · intro qs s hch hmc hgr
    unfold advance
    rw [if_neg]
    intro hall
    unfold advanceAllowed isNextButtonDisabled at hall
    rw [hch, hmc, hgr] at hall
    simp at hall

/-- Witness for C8: a one-question checked, ungraded short-answer session
on which `advance` is a no-op. -/
theorem advance_guard_witness :
    advance [⟨QuestionType.shortAnswer, none, ['m']⟩]
        ⟨0, [some ['u']], [true], [none], false⟩ =
      ⟨0, [some ['u']], [true], [none], false⟩ :=
  advance_guard.2 [⟨QuestionType.shortAnswer, none, ['m']⟩]
    ⟨0, [some ['u']], [true], [none], false⟩ (by decide) (by decide) (by decide)

/-- Claim C9: completing a session appends exactly one result at the end
of the persisted history, leaving every existing entry in place; deletion
keeps exactly the entries whose id differs from the given id, in their
original order, and never rewrites an entry. -/
theorem history_append_delete :
    (∀ (h : List QuizResult) (r : QuizResult),
        (handleQuizSubmit h r).length = h.length + 1 ∧
        (handleQuizSubmit h r).take h.length = h ∧
        (handleQuizSubmit h r).getLast? = some r) ∧
    (∀ (h : List QuizResult) (tid : List Char),
        (∀ x ∈ handleDeleteHistoryItem h tid, x.id ≠ tid) ∧
        List.Sublist (handleDeleteHistoryItem h tid) h ∧
        (∀ x ∈ h, x.id ≠ tid → x ∈ handleDeleteHistoryItem h tid)) := by
  constructor
  · intro h r
    refine ⟨?_, ?_, ?_⟩
    · simp [handleQuizSubmit]
    · exact List.take_left h [r]
    · exact List.getLast?_concat h
  · intro h tid
    refine ⟨?_, ?_, ?_⟩
    · intro x hx
      have := List.of_mem_filter hx
      simpa using this
    · exact List.filter_sublist h
    · intro x hx hne
      exact List.mem_filter.mpr ⟨hx, by simpa using hne⟩

/-- Witness for C9: deleting id "z" keeps the stored result whose id is
"a". -/
theorem history_append_delete_witness :
    (⟨['a'], [], [], [], [], 0, 0, 0, none, none, none⟩ : QuizResult) ∈
      handleDeleteHistoryItem [⟨['a'], [], [], [], [], 0, 0, 0, none, none, none⟩] ['z'] :=
  (history_append_delete.2 [⟨['a'], [], [], [], [], 0, 0, 0, none, none, none⟩] ['z']).2.2
    ⟨['a'], [], [], [], [], 0, 0, 0, none, none, none⟩ (List.mem_singleton.mpr rfl)
    (by decide)

/-- Claim C10: a null or empty candidate never matches, for every
authoritative answer (an answer normalizing to the empty string included)
and every position. -/
theorem null_or_empty_candidate_never_matches :
    ∀ (answer : List Char) (idx : Int),
      isAnswerMatch none answer idx = false ∧
        isAnswerMatch (some []) answer idx = false := by
  intro answer idx
  exact ⟨rfl, rfl⟩

end QuizApp
